import Mathlib

/-!
# Verification of the pdf2icd mention-normalization and resolution core

Shallow embedding of `pdf2icd/utils.py` (term normalization, validity),
`pdf2icd/disease_matcher.py` (exact/fuzzy/best match with memoization),
`pdf2icd/disease_ner.py` (mention deduplication and ordering) and
`pdf2icd/workflow.py` (`map_diseases` row production), together with proofs
of the specified properties.

Strings are modelled as Lean `String`/`List Char`; Python dictionaries as
association lists looked up by first matching key; the fractional rapidfuzz
similarity scores as exact rationals (`ℚ`).
-/

set_option maxHeartbeats 1000000

namespace Pdf2Icd

/-! ## Character primitives (ASCII model of the Python string operations) -/

/-- ASCII model of Python `str.lower` (as used by `normalize_term`). -/
def lowerChar (c : Char) : Char :=
  if 'A' ≤ c ∧ c ≤ 'Z' then Char.ofNat (c.toNat + 32) else c

/-- Model of the regex class `\w`: alphanumeric or underscore. -/
def isWordChar (c : Char) : Bool :=
  c.isAlphanum || c = '_'

/-- The characters kept by normalization step 2: the regex
`re.sub(r"[^\w\s.-]", " ", term)` keeps word characters, whitespace,
periods and hyphens. -/
def keepChar (c : Char) : Bool :=
  isWordChar c || c.isWhitespace || c = '.' || c = '-'

/-- Pointwise action of normalization step 2: a character not matched by
`[\w\s.-]` is replaced by a single space. -/
def replChar (c : Char) : Char :=
  if keepChar c then c else ' '

/-! ## Tokenization into maximal runs

`re.sub(rf"\b{pat}\b", repl, s)` for a nonempty pattern consisting purely of
word characters replaces exactly the maximal word-character runs of `s` that
are equal to `pat` (the `\b` anchors force a non-word character or a string
edge on both sides, and a pattern of word characters cannot match across a
non-word character).  We therefore model the whole-word substitutions of
`normalize_term`, and also `str.split()` (maximal non-whitespace runs), via
a generic tokenizer splitting a character list into maximal runs of
characters satisfying a predicate, with the remaining characters as
singleton separators. -/

/-- A token: a maximal run of predicate-satisfying characters, or a single
separator character. -/
inductive Tok where
  | word : List Char → Tok
  | sep : Char → Tok
deriving DecidableEq, Repr

/-- The characters of a token. -/
def Tok.chars : Tok → List Char
  | .word w => w
  | .sep c => [c]

/-- Is this token a run? -/
def Tok.isWord : Tok → Bool
  | .word _ => true
  | .sep _ => false

/-- Split a character list into maximal runs of `p`-characters and single
non-`p` separator characters. -/
def toks (p : Char → Bool) : List Char → List Tok
  | [] => []
  | c :: rest =>
    if p c then
      match toks p rest with
      | .word w :: ts => .word (c :: w) :: ts
      | ts => .word [c] :: ts
    else .sep c :: toks p rest

/-- Flatten a token list back to its characters. -/
def toksChars (ts : List Tok) : List Char :=
  (ts.map Tok.chars).flatten

/-- The runs of a token list, in order. -/
def toksWords (ts : List Tok) : List (List Char) :=
  ts.filterMap fun t => match t with
    | .word w => some w
    | .sep _ => none

/-! ## Normalization (`pdf2icd/utils.py`, `normalize_term`) -/

/-- Join words with single spaces (model of `" ".join(ws)`). -/
def joinWords : List (List Char) → List Char
  | [] => []
  | [w] => w
  | w :: ws => w ++ ' ' :: joinWords ws

/-- Non-whitespace predicate used to model `str.split()`. -/
def notWs (c : Char) : Bool :=
  !c.isWhitespace

/-- Normalization step 3: `re.sub(r"\s+", " ", term).strip()`, which equals
`" ".join(term.split())`: the maximal non-whitespace runs joined by single
spaces. -/
def collapseWs (s : List Char) : List Char :=
  joinWords (toksWords (toks notWs s))

/-- One token's contribution to a whole-word substitution. -/
def substTok (pat repl : List Char) : Tok → List Char
  | .word w => if w = pat then repl else w
  | .sep c => [c]

/-- `re.sub(rf"\b{pat}\b", repl, s)` for a nonempty all-word-character
pattern: replace each maximal word-character run equal to `pat` by `repl`. -/
def substWord (pat repl : List Char) (s : List Char) : List Char :=
  ((toks isWordChar s).map (substTok pat repl)).flatten

/-- The fixed abbreviation table of `normalize_term`, in source order. -/
def abbreviations : List (String × String) :=
  [("afib", "atrial fibrillation"),
   ("ca", "cancer"),
   ("cad", "coronary artery disease"),
   ("ckd", "chronic kidney disease"),
   ("copd", "chronic obstructive pulmonary disease"),
   ("dm", "diabetes"),
   ("dvt", "deep vein thrombosis"),
   ("dz", "disease"),
   ("hf", "heart failure"),
   ("htn", "hypertension"),
   ("mi", "myocardial infarction"),
   ("pe", "pulmonary embolism"),
   ("tb", "tuberculosis"),
   ("uti", "urinary tract infection")]

/-- The fixed irregular-plural table of `normalize_term`, in source order. -/
def plural_map : List (String × String) :=
  [("cancers", "cancer"),
   ("diseases", "disease"),
   ("failures", "failure"),
   ("findings", "finding"),
   ("infarctions", "infarction"),
   ("syndromes", "syndrome"),
   ("tumors", "tumor")]

/-- Sequentially apply the whole-word substitutions of a table. -/
def substFold (tbl : List (String × String)) (s : List Char) : List Char :=
  tbl.foldl (fun t kv => substWord kv.1.data kv.2.data t) s

/-- `normalize_term` on character lists: lowercase; replace `[^\w\s.-]` by a
space; collapse whitespace and trim; expand abbreviations; singularize the
listed plurals. -/
def normalizeL (s : List Char) : List Char :=
  substFold plural_map
    (substFold abbreviations
      (collapseWs ((s.map lowerChar).map replChar)))

/-- `normalize_term` (`pdf2icd/utils.py`). -/
def normalize_term (term : String) : String :=
  ⟨normalizeL term.data⟩

/-- `is_valid_mention` (`pdf2icd/utils.py`): true iff the normalized term
contains at least one alphanumeric character. -/
def is_valid_mention (term : String) : Bool :=
  (normalize_term term).data.any Char.isAlphanum

/-! ## The matcher (`pdf2icd/disease_matcher.py`) -/

/-- One match result dictionary.  `exact_match` builds records without a
`score` key; `best_match` and `fuzzy_match` set it — modelled by an
`Option ℚ` field (`none` = key absent). -/
structure MatchRec where
  matched : String
  score : Option ℚ
  cui : String
  icd_codes : List String
deriving DecidableEq, Repr

/-- The `DiseaseMatcher` state: the two dictionaries, the precomputed key
list (`self._keys`), the fuzzy-result cache (`self._fuzzy_cache`), and — as
proof instrumentation — the log of normalized terms for which the
similarity search was actually executed. -/
structure Matcher where
  term_to_cuis : List (String × List String)
  cui_to_icd : List (String × List String)
  keys : List String
  fuzzy_cache : List (String × List MatchRec)
  searches : List String
deriving DecidableEq, Repr

/-- Python `dict.get`: first entry with the given key, if any. -/
def dget {β : Type} (d : List (String × β)) (k : String) : Option β :=
  (d.find? fun p => p.1 == k).map Prod.snd

/-- `DiseaseMatcher.__init__`: load the dictionaries and precompute the key
list; the cache starts empty. -/
def mkMatcher (t2c c2i : List (String × List String)) : Matcher :=
  ⟨t2c, c2i, t2c.map Prod.fst, [], []⟩

/-- `DiseaseMatcher.exact_match`: normalize, look up the CUIs, and emit one
record per CUI with the ICD codes (empty if the CUI has none). -/
def exact_match (m : Matcher) (term : String) : List MatchRec :=
  let norm := normalize_term term
  let cuis := (dget m.term_to_cuis norm).getD []
  cuis.map fun cui => ⟨norm, none, cui, (dget m.cui_to_icd cui).getD []⟩

/-- Indel (insert/delete) edit distance, the metric underlying
`rapidfuzz.fuzz.ratio`. -/
def indelDist : List Char → List Char → Nat
  | [], ys => ys.length
  | x :: xs, [] => (x :: xs).length
  | x :: xs, y :: ys =>
    if x = y then indelDist xs ys
    else 1 + min (indelDist xs (y :: ys)) (indelDist (x :: xs) ys)
termination_by a b => a.length + b.length

/-- `rapidfuzz.fuzz.ratio`: normalized indel similarity scaled to 0–100,
computed exactly in ℚ. -/
def ratioScore (a b : List Char) : ℚ :=
  if a.length + b.length = 0 then 100
  else (100 * ((a.length + b.length - indelDist a b : Nat) : ℚ)) /
    ((a.length + b.length : Nat) : ℚ)

/-- Stable insertion into a sorted list: `x` goes in front of the first
element it compares `le` to, hence before any later equal-ranked element. -/
def insertLe {α : Type} (le : α → α → Bool) (x : α) : List α → List α
  | [] => [x]
  | y :: ys => if le x y then x :: y :: ys else y :: insertLe le x ys

/-- Stable sort by a total comparison (model of Python `sorted` and of the
rapidfuzz ranking; structurally recursive so that it evaluates by kernel
reduction). -/
def insSort {α : Type} (le : α → α → Bool) : List α → List α
  | [] => []
  | x :: xs => insertLe le x (insSort le xs)

/-- `rapidfuzz.process.extract(query, keys, scorer=fuzz.ratio, limit=limit)`:
score every key, rank by descending score (stably), keep the top `limit`. -/
def processExtract (query : String) (keys : List String) (limit : Nat) :
    List (String × ℚ) :=
  (insSort (fun a b => decide (b.2 ≤ a.2))
    (keys.map fun k => (k, ratioScore query.data k.data))).take limit

/-- The result list computed by the cache-miss branch of `fuzzy_match`: the
loop over the similarity-search candidates, keeping those with
`score >= threshold` and fanning each out to one record per CUI.  The
per-candidate CUI lookup `self.term_to_cuis[matched]` is unguarded in the
source (`KeyError` if the candidate were absent); it is totalized here with
`[]`, and the safety theorem for C10 shows the `none` case is unreachable. -/
def fuzzyResults (m : Matcher) (norm : String) (limit : Nat) (threshold : ℤ) :
    List MatchRec :=
  (processExtract norm m.keys limit).flatMap fun p =>
    if (threshold : ℚ) ≤ p.2 then
      ((dget m.term_to_cuis p.1).getD []).map fun cui =>
        ⟨p.1, some p.2, cui, (dget m.cui_to_icd cui).getD []⟩
    else []

/-- `DiseaseMatcher.fuzzy_match`: normalize; return the cached list on a
cache hit; otherwise run the similarity search, compute the results, store
the list in the cache and return it. -/
def fuzzy_match (m : Matcher) (term : String) (limit : Nat) (threshold : ℤ) :
    List MatchRec × Matcher :=
  let norm := normalize_term term
  match dget m.fuzzy_cache norm with
  | some rs => (rs, m)
  | none =>
    let results := fuzzyResults m norm limit threshold
    (results, { m with
        fuzzy_cache := m.fuzzy_cache ++ [(norm, results)],
        searches := m.searches ++ [norm] })

/-- `DiseaseMatcher.best_match`: exact match wins with every score forced to
100; otherwise fall back to fuzzy. -/
def best_match (m : Matcher) (term : String) (limit : Nat) (threshold : ℤ) :
    List MatchRec × Matcher :=
  let ex := exact_match m term
  if ex ≠ [] then (ex.map fun r => { r with score := some 100 }, m)
  else fuzzy_match m term limit threshold

/-- A sequence of `fuzzy_match` calls on one matcher instance
(term, limit, threshold), threading the state. -/
def runCalls (m : Matcher) : List (String × Nat × ℤ) → Matcher
  | [] => m
  | c :: rest => runCalls (fuzzy_match m c.1 c.2.1 c.2.2).2 rest

/-! ## Mention extraction (`pdf2icd/disease_ner.py`) -/

/-- The deduplication loop of `DiseaseNER.extract_mentions`: keep a mention
iff its normalized form is unseen and it is a valid mention; record the
normalized form as seen only in that case. -/
def dedupMentions (seen : List String) : List String → List String
  | [] => []
  | m :: rest =>
    let norm_m := normalize_term m
    if !seen.contains norm_m && is_valid_mention m then
      m :: dedupMentions (norm_m :: seen) rest
    else
      dedupMentions seen rest

/-- `DiseaseNER.extract_mentions`, parameterized by the two tagger passes
(the spaCy model is an external black box): merge the raw-pass disease spans
with the normalized-pass ones, deduplicate by normalized form, and return
the survivors sorted by their original text. -/
def extract_mentions (raw_ents norm_ents : List String) : List String :=
  insSort (fun a b => decide (a ≤ b)) (dedupMentions [] (raw_ents ++ norm_ents))

/-! ## Row production (`pdf2icd/workflow.py`, `map_diseases`) -/

/-- One output row.  The source renders `score` with `str(...)` into the
TSV; the row model keeps the exact value, `none` for the empty field. -/
structure Row where
  mention : String
  matched : String
  score : Option ℚ
  cui : String
  icd_codes : String
deriving DecidableEq, Repr

/-- The row built for one match record: the original mention text together
with the matched term, score, CUI, and the comma-joined ICD codes. -/
def mkRow (mention : String) (r : MatchRec) : Row :=
  ⟨mention, r.matched, r.score, r.cui, String.intercalate "," r.icd_codes⟩

/-- The row emitted when `best_match` returns no record. -/
def emptyRow (mention : String) : Row :=
  ⟨mention, "", none, "", ""⟩

/-- The mention loop of `map_diseases`, threading the matcher state. -/
def mapRows (m : Matcher) (mentions : List String) (limit : Nat)
    (threshold : ℤ) : List Row :=
  match mentions with
  | [] => []
  | mention :: rest =>
    let res := best_match m mention limit threshold
    (if res.1 ≠ [] then res.1.map (mkRow mention) else [emptyRow mention]) ++
      mapRows res.2 rest limit threshold

/-- `map_diseases`, parameterized by the extractor's mention list (the NER
stage is external): construct a fresh matcher and emit rows per mention. -/
def map_diseases (t2c c2i : List (String × List String))
    (mentions : List String) (limit : Nat) (threshold : ℤ) : List Row :=
  mapRows (mkMatcher t2c c2i) mentions limit threshold

/-! ## Concrete fixtures used by witnesses and counterexamples -/

/-- A one-term dictionary, for concrete fuzzy-match evaluations. -/
def demoT2C : List (String × List String) := [("abc", ["C1"])]

/-- The code table matching `demoT2C`. -/
def demoC2I : List (String × List String) := [("C1", ["X"])]

/-- A fresh matcher over the one-term dictionary. -/
def demoMatcher : Matcher := mkMatcher demoT2C demoC2I

/-- A dictionary with a real term, for exact-match evaluations. -/
def hyperT2C : List (String × List String) := [("hypertension", ["C001"])]

/-- The code table matching `hyperT2C`. -/
def hyperC2I : List (String × List String) := [("C001", ["I10"])]

/-- A fresh matcher over the hypertension dictionary. -/
def hyperMatcher : Matcher := mkMatcher hyperT2C hyperC2I

/-! ## Proof-infrastructure definitions -/

/-- Invariant for the at-most-once property of the fuzzy search: the search
log holds no duplicates and every logged term has a cache entry. -/
def SearchInv (m : Matcher) : Prop :=
  m.searches.Nodup ∧ ∀ n ∈ m.searches, (dget m.fuzzy_cache n).isSome = true

/-- The matcher states reachable inside `map_diseases`: dictionaries and key
list as built by the constructor, and every cache entry equal to the fresh
computation for its key at the loop's limit and threshold. -/
def CacheOK (t2c c2i : List (String × List String)) (limit : Nat)
    (threshold : ℤ) (m : Matcher) : Prop :=
  m.term_to_cuis = t2c ∧ m.cui_to_icd = c2i ∧ m.keys = t2c.map Prod.fst ∧
  ∀ n rs, dget m.fuzzy_cache n = some rs →
    rs = fuzzyResults (mkMatcher t2c c2i) n limit threshold

/-- A token satisfies the tokenizer's invariant: runs are nonempty and made
of predicate characters, separators fail the predicate. -/
def TokOK (p : Char → Bool) : Tok → Prop
  | .word w => w ≠ [] ∧ ∀ c ∈ w, p c = true
  | .sep c => p c = false

/-- Well-formed token list: every token is sound and no two runs are
adjacent (each run is maximal). -/
def WFtoks (p : Char → Bool) (ts : List Tok) : Prop :=
  (∀ t ∈ ts, TokOK p t) ∧
    List.Chain' (fun a b => a.isWord = false ∨ b.isWord = false) ts

/-- A word of the canonical whitespace decomposition: nonempty and free of
whitespace. -/
def GoodW (w : List Char) : Prop :=
  w ≠ [] ∧ ∀ c ∈ w, c.isWhitespace = false

/-- A string in collapsed-whitespace form: a single-space join of nonempty
whitespace-free words. -/
def Joined (s : List Char) : Prop :=
  ∃ ws, (∀ w ∈ ws, GoodW w) ∧ s = joinWords ws

/-- A nonempty string in collapsed-whitespace form. -/
def JoinedNE (s : List Char) : Prop :=
  ∃ ws, ws ≠ [] ∧ (∀ w ∈ ws, GoodW w) ∧ s = joinWords ws

/-- The maximal word-character runs of a string (the candidates for
whole-word substitution). -/
def wordsOfW (s : List Char) : List (List Char) :=
  toksWords (toks isWordChar s)

/-- All whole words occurring in some replacement string of the two
substitution tables. -/
def ReplWords : List (List Char) :=
  ((abbreviations ++ plural_map).map fun kv => wordsOfW kv.2.data).flatten

/-- The patterns of the two substitution tables. -/
def subKeys : List (List Char) :=
  (abbreviations ++ plural_map).map fun kv => kv.1.data

/-- A character is canonical if lowercasing and the step-2 replacement both
fix it. -/
def CharOK (c : Char) : Prop :=
  lowerChar c = c ∧ keepChar c = true

/-! ## Basic lemmas about the matcher state -/

lemma dget_isSome_of_mem_keys {β : Type} (d : List (String × β)) (k : String)
    (h : k ∈ d.map Prod.fst) : (dget d k).isSome = true := by
  rcases List.mem_map.mp h with ⟨p, hp, hk⟩
  have hfind : (List.find? (fun q => q.1 == k) d).isSome = true :=
    List.find?_isSome.mpr ⟨p, hp, by simp [hk]⟩
  unfold dget
  rcases hf : List.find? (fun q => q.1 == k) d with _ | q
  · rw [hf] at hfind; simp at hfind
  · rw [hf]; rfl

lemma dget_append {β : Type} (d₁ d₂ : List (String × β)) (k : String) :
    dget (d₁ ++ d₂) k = (dget d₁ k).or (dget d₂ k) := by
  unfold dget
  rw [List.find?_append]
  rcases hf : List.find? (fun p => p.1 == k) d₁ with _ | q <;> rw [hf] <;> rfl

lemma dget_singleton {β : Type} (k : String) (v : β) :
    dget [(k, v)] k = some v := by
  simp [dget]

lemma insertLe_perm {α : Type} (le : α → α → Bool) (x : α) (l : List α) :
    (insertLe le x l).Perm (x :: l) := by
  induction l with
  | nil => exact List.Perm.refl _
  | cons y ys ih =>
    unfold insertLe
    by_cases h : le x y = true
    · rw [if_pos h]
    · rw [if_neg h]
      exact (ih.cons y).trans (List.Perm.swap x y ys)

lemma insSort_perm {α : Type} (le : α → α → Bool) (l : List α) :
    (insSort le l).Perm l := by
  induction l with
  | nil => exact List.Perm.refl _
  | cons x xs ih =>
    exact (insertLe_perm le x (insSort le xs)).trans (ih.cons x)

lemma mem_insSort {α : Type} (le : α → α → Bool) {a : α} {l : List α} :
    a ∈ insSort le l ↔ a ∈ l :=
  (insSort_perm le l).mem_iff

lemma fuzzy_match_hit {m : Matcher} {term : String} {limit : Nat}
    {threshold : ℤ} {rs : List MatchRec}
    (h : dget m.fuzzy_cache (normalize_term term) = some rs) :
    fuzzy_match m term limit threshold = (rs, m) := by
  simp only [fuzzy_match, h]

lemma fuzzy_match_miss {m : Matcher} {term : String} {limit : Nat}
    {threshold : ℤ}
    (h : dget m.fuzzy_cache (normalize_term term) = none) :
    fuzzy_match m term limit threshold =
      (fuzzyResults m (normalize_term term) limit threshold,
        { m with
          fuzzy_cache := m.fuzzy_cache ++
            [(normalize_term term,
              fuzzyResults m (normalize_term term) limit threshold)],
          searches := m.searches ++ [normalize_term term] }) := by
  simp only [fuzzy_match, h]

/-! ## C8: normalization step 2 -/

/-- C8 counterexample: the underscore is not alphanumeric, not whitespace,
not a period and not a hyphen, yet step 2 keeps it (the regex class `\w`
includes `_`), so it survives into the canonical term instead of being
replaced by a space. -/
theorem C8_underscore_survives :
    Char.isAlphanum '_' = false ∧ Char.isWhitespace '_' = false ∧
    '_' ≠ '.' ∧ '_' ≠ '-' ∧ replChar '_' = '_' ∧ normalize_term "_" = "_" :=
  ⟨rfl, rfl, by decide, by decide, rfl, by decide⟩

/-- C8 (amended): in normalization step 2 every character that is not a word
character (alphanumeric or underscore), not whitespace, not a period and not
a hyphen is replaced with a single space, and every character surviving the
step is a word character, whitespace, a period or a hyphen. -/
theorem C8_step2_replacement :
    (∀ c : Char, isWordChar c = false → c.isWhitespace = false →
      c ≠ '.' → c ≠ '-' → replChar c = ' ') ∧
    ∀ (s : List Char), ∀ c ∈ s.map replChar, keepChar c = true := by
  constructor
  · intro c h1 h2 h3 h4
    have hk : keepChar c = false := by
      simp [keepChar, h1, h2, h3, h4]
    simp [replChar, hk]
  · intro s c hc
    rcases List.mem_map.mp hc with ⟨a, _, rfl⟩
    cases h : keepChar a
    · have ha : replChar a = ' ' := by simp [replChar, h]
      rw [ha]; decide
    · have ha : replChar a = a := by simp [replChar, h]
      rw [ha]; exact h

/-- Witness for C8: the bullet character is replaced with a space, and the
space itself is kept. -/
theorem C8_witness : replChar '•' = ' ' ∧ keepChar ' ' = true :=
  ⟨C8_step2_replacement.1 '•' (by decide) (by decide) (by decide) (by decide),
   C8_step2_replacement.2 [' '] ' ' (by decide)⟩

/-! ## C9: validity of mentions -/

/-- C9: `is_valid_mention raw` is true iff the normalized term contains at
least one alphanumeric character; in particular a bullet and a blank string
are invalid and "COVID-19" is valid. -/
theorem C9_valid_mention_iff_alnum :
    (∀ raw : String, is_valid_mention raw = true ↔
      ∃ c ∈ (normalize_term raw).data, c.isAlphanum = true) ∧
    is_valid_mention "•" = false ∧
    is_valid_mention "COVID-19" = true ∧
    is_valid_mention "   " = false := by
  refine ⟨fun raw => ?_, by decide, by decide, by decide⟩
  unfold is_valid_mention
  exact List.any_eq_true

/-! ## C5: exact match -/

/-- C5 counterexample: `exact_match` does not put a score of 100 (nor any
score) in its records; the score key is absent (`none`), and is only added
later by `best_match`. -/
theorem C5_exact_match_score_missing :
    exact_match hyperMatcher "Hypertension" =
      [{ matched := "hypertension", score := none, cui := "C001",
         icd_codes := ["I10"] }] ∧
    (none : Option ℚ) ≠ some 100 :=
  ⟨by with_unfolding_all rfl, by decide⟩

/-- C5 (amended): `exact_match` normalizes the term and looks it up in
`term_to_cuis`; for every CUI found it emits one record carrying the
normalized term, that CUI and the codes from `cui_to_icd` (empty list if the
CUI has no codes), in the dictionary's order, but with no score field
(the 100 is forced later by `best_match`); it never fails and returns the
empty list when the normalized term is absent. -/
theorem C5_exact_match_amended :
    ∀ (m : Matcher) (term : String),
      (dget m.term_to_cuis (normalize_term term) = none →
        exact_match m term = []) ∧
      ∀ cuis, dget m.term_to_cuis (normalize_term term) = some cuis →
        (exact_match m term).map MatchRec.cui = cuis ∧
        ∀ r ∈ exact_match m term, r.matched = normalize_term term ∧
          r.score = none ∧ r.icd_codes = (dget m.cui_to_icd r.cui).getD [] := by
  intro m term
  constructor
  · intro h; simp [exact_match, h]
  · intro cuis h
    constructor
    · simp only [exact_match, h, Option.getD_some, List.map_map]
      exact List.map_id cuis
    · intro r hr
      simp only [exact_match, h, Option.getD_some, List.mem_map] at hr
      obtain ⟨cui, _, rfl⟩ := hr
      exact ⟨rfl, rfl, rfl⟩

/-- Witness for C5: on the concrete dictionary the CUIs come out in
dictionary order. -/
theorem C5_witness :
    (exact_match hyperMatcher "Hypertension").map MatchRec.cui = ["C001"] :=
  ((C5_exact_match_amended hyperMatcher "Hypertension").2 ["C001"]
    (by with_unfolding_all rfl)).1

/-! ## C1: exact-match precedence in `best_match` -/

/-- C1: if `exact_match` is non-empty, `best_match` returns exactly that
list with every score forced to 100 and does not touch the fuzzy stage (the
matcher state, cache and search log included, is returned unchanged); if it
is empty, `best_match` returns `fuzzy_match` with the same arguments. -/
theorem C1_best_match_exact_precedence :
    ∀ (m : Matcher) (term : String) (limit : Nat) (threshold : ℤ),
      (exact_match m term ≠ [] →
        best_match m term limit threshold =
          ((exact_match m term).map fun r => { r with score := some 100 }, m) ∧
        ∀ r ∈ (best_match m term limit threshold).1, r.score = some 100) ∧
      (exact_match m term = [] →
        best_match m term limit threshold = fuzzy_match m term limit threshold) := by
  intro m term limit threshold
  constructor
  · intro h
    have he : best_match m term limit threshold =
        ((exact_match m term).map fun r => { r with score := some 100 }, m) := by
      simp only [best_match]
      split
      · rfl
      · next h' => exact absurd h h'
    refine ⟨he, ?_⟩
    rw [he]
    intro r hr
    rcases List.mem_map.mp hr with ⟨a, _, rfl⟩
    rfl
  · intro h
    simp only [best_match]
    split
    · next h' => exact absurd h h'
    · rfl

/-- Witness for C1: a term with an exact entry resolves through the exact
branch with score 100 and an unchanged matcher state. -/
theorem C1_witness :
    best_match hyperMatcher "HTN" 3 85 =
      ([{ matched := "hypertension", score := some 100, cui := "C001",
          icd_codes := ["I10"] }], hyperMatcher) := by
  have h := (C1_best_match_exact_precedence hyperMatcher "HTN" 3 85).1
    (by decide)
  rw [h.1]
  with_unfolding_all rfl

/-! ## C2: fuzzy threshold -/

/-- C2 counterexample: after a first `fuzzy_match` call with threshold 50
caches a record of score 600/7 (≈ 85.7), a second call for the same term
with threshold 90 returns that cached record although its score is below
90. -/
theorem C2_cached_score_below_threshold :
    (fuzzy_match (fuzzy_match demoMatcher "abcd" 3 50).2 "abcd" 3 90).1 =
      [{ matched := "abc", score := some (600/7), cui := "C1",
         icd_codes := ["X"] }] ∧
    ¬ ((90 : ℤ) : ℚ) ≤ 600/7 :=
  ⟨by with_unfolding_all rfl, of_decide_eq_true (by with_unfolding_all rfl)⟩

/-- C2 (amended): on a call whose normalized term is not yet cached, every
returned record's score meets the call's threshold; a cache-hit call instead
returns the list computed (and filtered) by the call that populated the
cache, whose scores need not meet the current threshold. -/
theorem C2_threshold_enforced_on_fresh_term :
    ∀ (m : Matcher) (term : String) (limit : Nat) (threshold : ℤ),
      dget m.fuzzy_cache (normalize_term term) = none →
      ∀ r ∈ (fuzzy_match m term limit threshold).1,
        ∃ s : ℚ, r.score = some s ∧ (threshold : ℚ) ≤ s := by
  intro m term limit threshold h r hr
  rw [fuzzy_match_miss h] at hr
  simp only [fuzzyResults, List.mem_flatMap] at hr
  obtain ⟨p, _, hrp⟩ := hr
  by_cases hth : (threshold : ℚ) ≤ p.2
  · rw [if_pos hth] at hrp
    rcases List.mem_map.mp hrp with ⟨cui, _, rfl⟩
    exact ⟨p.2, rfl, hth⟩
  · rw [if_neg hth] at hrp
    simp at hrp

/-- Witness for C2: a fresh-term call with threshold 50 yields the record
with score 600/7, which does meet 50. -/
theorem C2_witness :
    ∃ s : ℚ, some ((600:ℚ)/7) = some s ∧ ((50 : ℤ) : ℚ) ≤ s :=
  C2_threshold_enforced_on_fresh_term demoMatcher "abcd" 3 50
    (by with_unfolding_all rfl)
    { matched := "abc", score := some (600/7), cui := "C1", icd_codes := ["X"] }
    (by with_unfolding_all exact List.mem_cons_self _ _)

/-! ## C10: fuzzy candidates are dictionary keys -/

/-- C10: the matcher's key list is materialized at construction as exactly
the key list of `term_to_cuis`; whenever that relation holds, every
candidate returned by the similarity search is a key of `term_to_cuis`
(so the unguarded `self.term_to_cuis[matched]` lookup cannot fail), and
`fuzzy_match` mutates neither the mapping nor the key list. -/
theorem C10_fuzzy_candidates_are_dict_keys :
    (∀ t2c c2i : List (String × List String),
      (mkMatcher t2c c2i).keys = t2c.map Prod.fst) ∧
    ∀ (m : Matcher), m.keys = m.term_to_cuis.map Prod.fst →
      (∀ (query : String) (limit : Nat), ∀ p ∈ processExtract query m.keys limit,
        (dget m.term_to_cuis p.1).isSome = true) ∧
      ∀ (term : String) (limit : Nat) (threshold : ℤ),
        (fuzzy_match m term limit threshold).2.term_to_cuis = m.term_to_cuis ∧
        (fuzzy_match m term limit threshold).2.keys = m.keys := by
  refine ⟨fun t2c c2i => rfl, fun m hm => ⟨?_, ?_⟩⟩
  · intro query limit p hp
    have hp1 : p ∈ insSort (fun a b => decide (b.2 ≤ a.2))
        (m.keys.map fun k => (k, ratioScore query.data k.data)) :=
      List.take_subset _ _ hp
    have hp2 : p ∈ m.keys.map fun k => (k, ratioScore query.data k.data) :=
      (mem_insSort _).mp hp1
    rcases List.mem_map.mp hp2 with ⟨k, hk, rfl⟩
    exact dget_isSome_of_mem_keys _ _ (hm ▸ hk)
  · intro term limit threshold
    rcases hc : dget m.fuzzy_cache (normalize_term term) with _ | rs
    · rw [fuzzy_match_miss hc]; exact ⟨rfl, rfl⟩
    · rw [fuzzy_match_hit hc]; exact ⟨rfl, rfl⟩

/-- Witness for C10: the candidate "abc" produced for the query "abcd" is
in the dictionary. -/
theorem C10_witness : (dget demoMatcher.term_to_cuis "abc").isSome = true :=
  (C10_fuzzy_candidates_are_dict_keys.2 demoMatcher rfl).1 "abcd" 3
    ("abc", (600:ℚ)/7) (by with_unfolding_all exact List.mem_cons_self _ _)

/-! ## C3: cache consistency -/

lemma cache_stores_result (m : Matcher) (term : String) (limit : Nat)
    (threshold : ℤ) :
    dget (fuzzy_match m term limit threshold).2.fuzzy_cache
      (normalize_term term) = some (fuzzy_match m term limit threshold).1 := by
  rcases hc : dget m.fuzzy_cache (normalize_term term) with _ | rs
  · rw [fuzzy_match_miss hc]
    show dget (m.fuzzy_cache ++ [_]) _ = _
    rw [dget_append, hc, dget_singleton]
    rfl
  · rw [fuzzy_match_hit hc]
    exact hc

lemma searchInv_step {m : Matcher} (term : String) (limit : Nat)
    (threshold : ℤ) (h : SearchInv m) :
    SearchInv (fuzzy_match m term limit threshold).2 := by
  obtain ⟨hnd, hmem⟩ := h
  rcases hc : dget m.fuzzy_cache (normalize_term term) with _ | rs
  · rw [fuzzy_match_miss hc]
    constructor
    · show (m.searches ++ [normalize_term term]).Nodup
      rw [List.nodup_append]
      refine ⟨hnd, List.nodup_singleton _, ?_⟩
      intro a ha hb
      rw [List.mem_singleton] at hb
      subst hb
      have hx := hmem _ ha
      rw [hc] at hx
      simp at hx
    · show ∀ n ∈ m.searches ++ [normalize_term term],
        (dget (m.fuzzy_cache ++ [_]) n).isSome = true
      intro n hn
      rw [List.mem_append, List.mem_singleton] at hn
      rw [dget_append]
      rcases hn with hn | rfl
      · have hx := hmem n hn
        rcases hd : dget m.fuzzy_cache n with _ | v
        · rw [hd] at hx; simp at hx
        · rfl
      · rw [hc, dget_singleton]; rfl
  · rw [fuzzy_match_hit hc]
    exact ⟨hnd, hmem⟩

lemma searchInv_runCalls (calls : List (String × Nat × ℤ)) :
    ∀ m : Matcher, SearchInv m → SearchInv (runCalls m calls) := by
  induction calls with
  | nil => intro m h; exact h
  | cons c rest ih =>
    intro m h
    exact ih _ (searchInv_step c.1 c.2.1 c.2.2 h)

/-- C3: (i) the full result list (possibly empty) is stored in the cache
keyed by the normalized term before `fuzzy_match` returns; (ii) a subsequent
call whose argument has the same normalized term — with any
limit/threshold — returns the identical list and leaves the state untouched
(so the similarity search is not re-run); (iii) over any sequence of calls
on a freshly constructed matcher, the similarity search executes at most
once per normalized term (the search log never holds duplicates). -/
theorem C3_fuzzy_cache_consistency :
    (∀ (m : Matcher) (term : String) (limit : Nat) (threshold : ℤ),
      dget (fuzzy_match m term limit threshold).2.fuzzy_cache
        (normalize_term term) = some (fuzzy_match m term limit threshold).1) ∧
    (∀ (m : Matcher) (term term' : String) (l l' : Nat) (t t' : ℤ),
      normalize_term term' = normalize_term term →
      fuzzy_match (fuzzy_match m term l t).2 term' l' t' =
        ((fuzzy_match m term l t).1, (fuzzy_match m term l t).2)) ∧
    ∀ (t2c c2i : List (String × List String))
      (calls : List (String × Nat × ℤ)),
      (runCalls (mkMatcher t2c c2i) calls).searches.Nodup := by
  refine ⟨cache_stores_result, ?_, ?_⟩
  · intro m term term' l l' t t' hnorm
    have h' : dget (fuzzy_match m term l t).2.fuzzy_cache
        (normalize_term term') = some (fuzzy_match m term l t).1 := by
      rw [hnorm]; exact cache_stores_result m term l t
    exact fuzzy_match_hit h'
  · intro t2c c2i calls
    exact (searchInv_runCalls calls _
      ⟨List.nodup_nil, fun n hn => (List.not_mem_nil n hn).elim⟩).1

/-- Witness for C3: a repeated call for the same term, with different limit
and threshold, returns the first call's result and state unchanged. -/
theorem C3_witness :
    fuzzy_match (fuzzy_match demoMatcher "abcd" 3 50).2 "abcd" 7 95 =
      ((fuzzy_match demoMatcher "abcd" 3 50).1,
        (fuzzy_match demoMatcher "abcd" 3 50).2) :=
  C3_fuzzy_cache_consistency.2.1 demoMatcher "abcd" "abcd" 3 7 50 95 rfl

/-! ## C6: row production in `map_diseases` -/

lemma dget_pair {β : Type} (k n : String) (v : β) :
    dget [(k, v)] n = if k = n then some v else none := by
  by_cases h : k = n <;> simp [dget, h]

lemma best_match_pos {m : Matcher} {term : String} {limit : Nat}
    {threshold : ℤ} (h : exact_match m term ≠ []) :
    best_match m term limit threshold =
      ((exact_match m term).map fun r => { r with score := some 100 }, m) := by
  simp only [best_match]
  rw [if_pos h]

lemma best_match_neg {m : Matcher} {term : String} {limit : Nat}
    {threshold : ℤ} (h : exact_match m term = []) :
    best_match m term limit threshold = fuzzy_match m term limit threshold := by
  simp only [best_match]
  rw [if_neg (fun hn => hn h)]

lemma fuzzyResults_congr {m m' : Matcher} (h1 : m.term_to_cuis = m'.term_to_cuis)
    (h2 : m.cui_to_icd = m'.cui_to_icd) (h3 : m.keys = m'.keys) :
    fuzzyResults m = fuzzyResults m' := by
  funext norm limit threshold
  unfold fuzzyResults
  rw [h1, h2, h3]

lemma cacheOK_mk (t2c c2i : List (String × List String)) (limit : Nat)
    (threshold : ℤ) : CacheOK t2c c2i limit threshold (mkMatcher t2c c2i) :=
  ⟨rfl, rfl, rfl, fun n rs h => by simp [dget, mkMatcher] at h⟩

lemma fuzzy_match_cacheOK {t2c c2i : List (String × List String)}
    {limit : Nat} {threshold : ℤ} {m : Matcher}
    (h : CacheOK t2c c2i limit threshold m) (term : String) :
    (fuzzy_match m term limit threshold).1 =
      (fuzzy_match (mkMatcher t2c c2i) term limit threshold).1 ∧
    CacheOK t2c c2i limit threshold (fuzzy_match m term limit threshold).2 := by
  obtain ⟨h1, h2, h3, h4⟩ := h
  have hres : fuzzyResults m = fuzzyResults (mkMatcher t2c c2i) :=
    fuzzyResults_congr (by rw [h1]; rfl) (by rw [h2]; rfl) (by rw [h3]; rfl)
  have hnone : dget (mkMatcher t2c c2i).fuzzy_cache (normalize_term term)
      = none := rfl
  have hfresh : (fuzzy_match (mkMatcher t2c c2i) term limit threshold).1 =
      fuzzyResults (mkMatcher t2c c2i) (normalize_term term) limit threshold := by
    rw [fuzzy_match_miss hnone]
  rcases hc : dget m.fuzzy_cache (normalize_term term) with _ | rs
  · rw [fuzzy_match_miss hc]
    refine ⟨by rw [hfresh, hres], h1, h2, h3, ?_⟩
    intro n rs' hn
    rw [show ({ m with
        fuzzy_cache := m.fuzzy_cache ++
          [(normalize_term term,
            fuzzyResults m (normalize_term term) limit threshold)],
        searches := m.searches ++ [normalize_term term] } : Matcher).fuzzy_cache
      = m.fuzzy_cache ++ [(normalize_term term,
          fuzzyResults m (normalize_term term) limit threshold)] from rfl,
      dget_append] at hn
    rcases hd : dget m.fuzzy_cache n with _ | v
    · rw [hd] at hn
      rw [dget_pair] at hn
      by_cases he : normalize_term term = n
      · rw [if_pos he] at hn
        cases hn
        rw [hres, he]
      · rw [if_neg he] at hn
        cases hn
    · rw [hd] at hn
      cases hn
      exact h4 n _ hd
  · rw [fuzzy_match_hit hc]
    exact ⟨by rw [hfresh]; exact h4 _ _ hc, h1, h2, h3, h4⟩

lemma exact_match_congr {m m' : Matcher} (h1 : m.term_to_cuis = m'.term_to_cuis)
    (h2 : m.cui_to_icd = m'.cui_to_icd) (term : String) :
    exact_match m term = exact_match m' term := by
  unfold exact_match
  rw [h1, h2]

lemma best_match_cacheOK {t2c c2i : List (String × List String)}
    {limit : Nat} {threshold : ℤ} {m : Matcher}
    (h : CacheOK t2c c2i limit threshold m) (term : String) :
    (best_match m term limit threshold).1 =
      (best_match (mkMatcher t2c c2i) term limit threshold).1 ∧
    CacheOK t2c c2i limit threshold (best_match m term limit threshold).2 := by
  have hex : exact_match m term = exact_match (mkMatcher t2c c2i) term :=
    exact_match_congr (by rw [h.1]; rfl) (by rw [h.2.1]; rfl) term
  by_cases he : exact_match m term = []
  · rw [best_match_neg he, best_match_neg (by rw [← hex]; exact he)]
    exact fuzzy_match_cacheOK h term
  · rw [best_match_pos he, best_match_pos (by rw [← hex]; exact he)]
    exact ⟨by rw [hex], h⟩

lemma mapRows_mention_mem {limit : Nat} {threshold : ℤ} :
    ∀ (mentions : List String) (m : Matcher) (row : Row),
      row ∈ mapRows m mentions limit threshold → row.mention ∈ mentions := by
  intro mentions
  induction mentions with
  | nil => intro m row h; simp [mapRows] at h
  | cons x rest ih =>
    intro m row h
    simp only [mapRows, List.mem_append] at h
    rcases h with h | h
    · split at h
      · rcases List.mem_map.mp h with ⟨r, _, rfl⟩
        exact List.mem_cons_self _ _
      · rw [List.mem_singleton] at h
        subst h
        exact List.mem_cons_self _ _
    · exact List.mem_cons_of_mem _ (ih _ _ h)

lemma mapRows_filter {t2c c2i : List (String × List String)} {limit : Nat}
    {threshold : ℤ} :
    ∀ (mentions : List String) (m : Matcher),
      CacheOK t2c c2i limit threshold m → mentions.Nodup →
      ∀ mention ∈ mentions,
        (mapRows m mentions limit threshold).filter
            (fun row => row.mention == mention) =
          (if (best_match (mkMatcher t2c c2i) mention limit threshold).1 ≠ []
           then ((best_match (mkMatcher t2c c2i) mention limit
             threshold).1).map (mkRow mention)
           else [emptyRow mention]) := by
  intro mentions
  induction mentions with
  | nil => intro m _ _ mention hm; exact (List.not_mem_nil mention hm).elim
  | cons x rest ih =>
    intro m hOK hnd mention hm
    have hx : x ∉ rest := (List.nodup_cons.mp hnd).1
    have hnd' : rest.Nodup := (List.nodup_cons.mp hnd).2
    have hbm := best_match_cacheOK hOK x
    simp only [mapRows, List.filter_append]
    rcases List.mem_cons.mp hm with rfl | hm'
    · -- the head is the mention: its block survives the filter whole,
      -- later rows mention only members of `rest` and are filtered out
      have htail : (mapRows (best_match m mention limit threshold).2 rest
          limit threshold).filter (fun row => row.mention == mention) = [] := by
        rw [List.filter_eq_nil_iff]
        intro row hrow
        have := mapRows_mention_mem rest _ row hrow
        simp only [beq_iff_eq]
        intro hEq
        exact hx (hEq ▸ this)
      rw [htail, List.append_nil]
      rw [hbm.1]
      split
      · next hne =>
        rw [List.filter_eq_self.mpr]
        intro r hr
        rcases List.mem_map.mp hr with ⟨a, _, rfl⟩
        simp [mkRow]
      · next hne =>
        rw [List.filter_eq_self.mpr]
        intro r hr
        rw [List.mem_singleton] at hr
        subst hr
        simp [emptyRow]
    · -- the mention sits in the tail: the head's block is filtered out
      have hne : mention ≠ x := fun hEq => hx (hEq ▸ hm')
      have hhead : (if (best_match m x limit threshold).1 ≠ []
          then ((best_match m x limit threshold).1).map (mkRow x)
          else [emptyRow x]).filter (fun row => row.mention == mention) = [] := by
        rw [List.filter_eq_nil_iff]
        intro row hrow
        split at hrow
        · rcases List.mem_map.mp hrow with ⟨a, _, rfl⟩
          simpa [mkRow] using fun hEq => hne hEq.symm
        · rw [List.mem_singleton] at hrow
          subst hrow
          simpa [emptyRow] using fun hEq => hne hEq.symm
      rw [hhead, List.nil_append]
      exact ih _ hbm.2 hnd' mention hm'

/-- C6: every mention handed to `map_diseases` is represented in the output:
with distinct mentions (as produced by the extractor), the rows carrying a
given mention are exactly one row per `best_match` record — each holding the
mention text with the matched term, score, CUI and comma-joined codes — when
`best_match` is non-empty, and exactly one all-empty row otherwise; in
particular at least one row per mention. -/
theorem C6_every_mention_represented :
    ∀ (t2c c2i : List (String × List String)) (mentions : List String)
      (limit : Nat) (threshold : ℤ),
      mentions.Nodup →
      ∀ mention ∈ mentions,
        (map_diseases t2c c2i mentions limit threshold).filter
            (fun row => row.mention == mention) =
          (if (best_match (mkMatcher t2c c2i) mention limit threshold).1 ≠ []
           then ((best_match (mkMatcher t2c c2i) mention limit
             threshold).1).map (mkRow mention)
           else [emptyRow mention]) ∧
        1 ≤ ((map_diseases t2c c2i mentions limit threshold).filter
            (fun row => row.mention == mention)).length := by
  intro t2c c2i mentions limit threshold hnd mention hm
  have h := mapRows_filter mentions (mkMatcher t2c c2i)
    (cacheOK_mk t2c c2i limit threshold) hnd mention hm
  refine ⟨h, ?_⟩
  unfold map_diseases
  rw [h]
  split
  · next hne =>
    rw [List.length_map]
    exact List.length_pos.mpr hne
  · exact Nat.le_refl 1

/-- Witness for C6: with a dictionary containing only "hypertension", the
unresolvable mention "zzz" yields exactly its explicit empty row. -/
theorem C6_witness :
    (map_diseases hyperT2C hyperC2I ["HTN", "zzz"] 3 85).filter
        (fun row => row.mention == "zzz") = [emptyRow "zzz"] := by
  have h := C6_every_mention_represented hyperT2C hyperC2I ["HTN", "zzz"] 3 85
    (by decide) "zzz" (by decide)
  rw [h.1]
  with_unfolding_all rfl

/-! ## C7: mention extraction -/

lemma valid_congr {x y : String} (h : normalize_term x = normalize_term y) :
    is_valid_mention x = is_valid_mention y := by
  unfold is_valid_mention
  rw [h]

lemma dedup_sub : ∀ (l seen : List String), ∀ y ∈ dedupMentions seen l,
    y ∈ l ∧ is_valid_mention y = true ∧ normalize_term y ∉ seen := by
  intro l
  induction l with
  | nil => intro seen y h; simp [dedupMentions] at h
  | cons m rest ih =>
    intro seen y h
    simp only [dedupMentions] at h
    split at h
    · next hcond =>
      rw [Bool.and_eq_true, Bool.not_eq_true'] at hcond
      rcases List.mem_cons.mp h with rfl | h'
      · refine ⟨List.mem_cons_self _ _, hcond.2, fun hseen => ?_⟩
        have : (seen.contains (normalize_term y)) = true :=
          List.elem_iff.mpr hseen
        rw [hcond.1] at this
        cases this
      · have hy := ih (normalize_term m :: seen) y h'
        exact ⟨List.mem_cons_of_mem _ hy.1, hy.2.1,
          fun hs => hy.2.2 (List.mem_cons_of_mem _ hs)⟩
    · next hcond =>
      have hy := ih seen y h
      exact ⟨List.mem_cons_of_mem _ hy.1, hy.2.1, hy.2.2⟩

lemma dedup_norms_nodup : ∀ (l seen : List String),
    ((dedupMentions seen l).map normalize_term).Nodup := by
  intro l
  induction l with
  | nil => intro seen; simp [dedupMentions]
  | cons m rest ih =>
    intro seen
    simp only [dedupMentions]
    split
    · next hcond =>
      rw [List.map_cons, List.nodup_cons]
      refine ⟨?_, ih (normalize_term m :: seen)⟩
      intro hmem
      rcases List.mem_map.mp hmem with ⟨y, hy, hEq⟩
      apply (dedup_sub rest (normalize_term m :: seen) y hy).2.2
      rw [hEq]
      exact List.mem_cons_self _ _
    · exact ih seen

lemma dedup_cover : ∀ (l seen : List String) (x : String), x ∈ l →
    is_valid_mention x = true →
    normalize_term x ∈ seen ∨
      ∃ y ∈ dedupMentions seen l, normalize_term y = normalize_term x := by
  intro l
  induction l with
  | nil => intro seen x hx; exact (List.not_mem_nil x hx).elim
  | cons m rest ih =>
    intro seen x hx hval
    simp only [dedupMentions]
    split
    · next hcond =>
      rcases List.mem_cons.mp hx with rfl | hx'
      · exact Or.inr ⟨x, List.mem_cons_self _ _, rfl⟩
      · rcases ih (normalize_term m :: seen) x hx' hval with hs | ⟨y, hy, hEq⟩
        · rcases List.mem_cons.mp hs with hEq | hs'
          · exact Or.inr ⟨m, List.mem_cons_self _ _, hEq.symm⟩
          · exact Or.inl hs'
        · exact Or.inr ⟨y, List.mem_cons_of_mem _ hy, hEq⟩
    · next hcond =>
      rcases List.mem_cons.mp hx with rfl | hx'
      · -- the head was dropped: either its normalized form is already seen,
        -- or it is invalid — the latter contradicts `hval`
        rw [Bool.and_eq_true, Bool.not_eq_true'] at hcond
        by_cases hseen : normalize_term x ∈ seen
        · exact Or.inl hseen
        · exfalso
          apply hcond
          refine ⟨?_, hval⟩
          rcases hc : seen.contains (normalize_term x) with _ | _
          · rfl
          · exact absurd (List.elem_iff.mp hc) hseen
      · exact ih seen x hx' hval

lemma dedup_first : ∀ (l seen : List String) (y : String),
    y ∈ dedupMentions seen l →
    l.find? (fun x => normalize_term x == normalize_term y) = some y := by
  intro l
  induction l with
  | nil => intro seen y h; simp [dedupMentions] at h
  | cons m rest ih =>
    intro seen y h
    simp only [dedupMentions] at h
    split at h
    · next hcond =>
      rw [Bool.and_eq_true, Bool.not_eq_true'] at hcond
      rcases List.mem_cons.mp h with rfl | h'
      · apply List.find?_cons_of_pos
        rw [beq_iff_eq]
      · have hy := dedup_sub rest (normalize_term m :: seen) y h'
        rw [List.find?_cons_of_neg, ih _ y h']
        intro hbeq
        apply hy.2.2
        rw [← beq_iff_eq.mp hbeq]
        exact List.mem_cons_self _ _
    · next hcond =>
      have hy := dedup_sub rest seen y h
      rw [List.find?_cons_of_neg, ih _ y h]
      intro hbeq
      have hEq : normalize_term m = normalize_term y := beq_iff_eq.mp hbeq
      apply hcond
      rw [Bool.and_eq_true, Bool.not_eq_true']
      constructor
      · -- the head's normalized form is not yet seen, because y's is not
        rcases hc : seen.contains (normalize_term m) with _ | _
        · rfl
        · exact absurd (hEq ▸ List.elem_iff.mp hc) hy.2.2
      · rw [valid_congr hEq]
        exact hy.2.1

lemma pairwise_insertLe {α : Type} {le : α → α → Bool}
    (htrans : ∀ a b c, le a b = true → le b c = true → le a c = true)
    (htot : ∀ a b, le a b = true ∨ le b a = true) (x : α) :
    ∀ l : List α, l.Pairwise (fun a b => le a b = true) →
      (insertLe le x l).Pairwise (fun a b => le a b = true) := by
  intro l
  induction l with
  | nil => intro _; exact List.pairwise_singleton _ _
  | cons y ys ih =>
    intro hp
    rcases List.pairwise_cons.mp hp with ⟨hy, hys⟩
    unfold insertLe
    by_cases h : le x y = true
    · rw [if_pos h]
      refine List.pairwise_cons.mpr ⟨?_, hp⟩
      intro b hb
      rcases List.mem_cons.mp hb with rfl | hb'
      · exact h
      · exact htrans x y b h (hy b hb')
    · rw [if_neg h]
      refine List.pairwise_cons.mpr ⟨?_, ih hys⟩
      intro b hb
      have hb' := (insertLe_perm le x ys).mem_iff.mp hb
      rcases List.mem_cons.mp hb' with rfl | hb''
      · rcases htot y b with h1 | h2
        · exact h1
        · exact absurd h2 h
      · exact hy b hb''

lemma pairwise_insSort {α : Type} {le : α → α → Bool}
    (htrans : ∀ a b c, le a b = true → le b c = true → le a c = true)
    (htot : ∀ a b, le a b = true ∨ le b a = true) (l : List α) :
    (insSort le l).Pairwise (fun a b => le a b = true) := by
  induction l with
  | nil => exact List.Pairwise.nil
  | cons x xs ih => exact pairwise_insertLe htrans htot x _ ih

/-- C7: the merged raw-pass and normalized-pass spans are deduplicated by
normalized form keeping, per class, exactly the first occurrence in merge
order; invalid mentions are dropped; the survivors come back sorted
lexicographically by their original text; hence no two returned mentions
share a normalized form, every returned mention is a valid member of the
merged list and is the first occurrence of its normalized form, and every
valid merged mention has a representative. -/
theorem C7_extract_mentions_dedup :
    ∀ (raw_ents norm_ents : List String),
      (extract_mentions raw_ents norm_ents).Pairwise (fun a b => a ≤ b) ∧
      ((extract_mentions raw_ents norm_ents).map normalize_term).Nodup ∧
      (∀ y ∈ extract_mentions raw_ents norm_ents,
        y ∈ raw_ents ++ norm_ents ∧ is_valid_mention y = true ∧
        (raw_ents ++ norm_ents).find?
          (fun x => normalize_term x == normalize_term y) = some y) ∧
      ∀ x ∈ raw_ents ++ norm_ents, is_valid_mention x = true →
        ∃ y ∈ extract_mentions raw_ents norm_ents,
          normalize_term y = normalize_term x := by
  intro raw_ents norm_ents
  have htrans : ∀ a b c : String, decide (a ≤ b) = true →
      decide (b ≤ c) = true → decide (a ≤ c) = true := by
    intro a b c h1 h2
    exact decide_eq_true (le_trans (of_decide_eq_true h1) (of_decide_eq_true h2))
  have htot : ∀ a b : String, decide (a ≤ b) = true ∨ decide (b ≤ a) = true := by
    intro a b
    rcases le_total a b with h | h
    · exact Or.inl (decide_eq_true h)
    · exact Or.inr (decide_eq_true h)
  refine ⟨?_, ?_, ?_, ?_⟩
  · exact (pairwise_insSort htrans htot _).imp fun h => of_decide_eq_true h
  · exact ((insSort_perm _ _).map normalize_term).nodup_iff.mpr
      (dedup_norms_nodup (raw_ents ++ norm_ents) [])
  · intro y hy
    have hy' := (mem_insSort _).mp hy
    have h1 := dedup_sub (raw_ents ++ norm_ents) [] y hy'
    exact ⟨h1.1, h1.2.1, dedup_first (raw_ents ++ norm_ents) [] y hy'⟩
  · intro x hx hval
    rcases dedup_cover (raw_ents ++ norm_ents) [] x hx hval with hs | ⟨y, hy, hEq⟩
    · exact (List.not_mem_nil _ hs).elim
    · exact ⟨y, (mem_insSort _).mpr hy, hEq⟩

/-- Witness for C7: with `["HTN", "Hypertension"]` from the raw pass and
`["htn"]` from the normalized pass, the surviving representative is the
first-merged "HTN". -/
theorem C7_witness :
    "HTN" ∈ ["HTN", "Hypertension"] ++ ["htn"] ∧
    is_valid_mention "HTN" = true ∧
    (["HTN", "Hypertension"] ++ ["htn"]).find?
      (fun x => normalize_term x == normalize_term "HTN") = some "HTN" :=
  (C7_extract_mentions_dedup ["HTN", "Hypertension"] ["htn"]).2.2.1 "HTN"
    (by decide)

/-! ## C4: tokenizer facts -/

lemma toksChars_nil : toksChars [] = [] := rfl

lemma toksChars_cons (t : Tok) (ts : List Tok) :
    toksChars (t :: ts) = t.chars ++ toksChars ts := rfl

lemma toks_cons_sep {p : Char → Bool} {c : Char} (s : List Char)
    (h : p c = false) : toks p (c :: s) = .sep c :: toks p s := by
  simp [toks, h]

lemma toks_cons_pos_word {p : Char → Bool} {c : Char} {s : List Char}
    {w : List Char} {ts : List Tok} (h : p c = true)
    (hm : toks p s = .word w :: ts) :
    toks p (c :: s) = .word (c :: w) :: ts := by
  simp [toks, h, hm]

lemma toks_cons_pos_nil {p : Char → Bool} {c : Char} {s : List Char}
    (h : p c = true) (hm : toks p s = []) :
    toks p (c :: s) = [.word [c]] := by
  simp [toks, h, hm]

lemma toks_cons_pos_sep {p : Char → Bool} {c d : Char} {s : List Char}
    {ts : List Tok} (h : p c = true) (hm : toks p s = .sep d :: ts) :
    toks p (c :: s) = .word [c] :: .sep d :: ts := by
  simp [toks, h, hm]

lemma toksChars_toks (p : Char → Bool) :
    ∀ s : List Char, toksChars (toks p s) = s := by
  intro s
  induction s with
  | nil => rfl
  | cons c rest ih =>
    cases h : p c
    · rw [toks_cons_sep rest h, toksChars_cons]
      show c :: toksChars (toks p rest) = c :: rest
      rw [ih]
    · cases hm : toks p rest with
      | nil =>
        rw [hm, toksChars_nil] at ih
        rw [toks_cons_pos_nil h hm, ← ih]
        rfl
      | cons t0 ts0 =>
        cases t0 with
        | word w =>
          rw [hm, toksChars_cons] at ih
          rw [toks_cons_pos_word h hm, toksChars_cons]
          show c :: (w ++ toksChars ts0) = c :: rest
          rw [← ih]
          rfl
        | sep d =>
          rw [hm, toksChars_cons] at ih
          rw [toks_cons_pos_sep h hm, toksChars_cons]
          show c :: (d :: toksChars ts0) = c :: rest
          rw [← ih]
          rfl

lemma wf_toks (p : Char → Bool) : ∀ s : List Char, WFtoks p (toks p s) := by
  intro s
  induction s with
  | nil => exact ⟨fun t ht => absurd ht (List.not_mem_nil t), List.chain'_nil⟩
  | cons c rest ih =>
    obtain ⟨hok, hch⟩ := ih
    cases h : p c
    · rw [toks_cons_sep rest h]
      refine ⟨?_, ?_⟩
      · intro t ht
        rcases List.mem_cons.mp ht with rfl | ht'
        · exact h
        · exact hok t ht'
      · rw [List.chain'_cons']
        exact ⟨fun y _ => Or.inl rfl, hch⟩
    · cases hm : toks p rest with
      | nil =>
        rw [toks_cons_pos_nil h hm]
        refine ⟨?_, List.chain'_singleton _⟩
        intro t ht
        rw [List.mem_singleton] at ht
        subst ht
        refine ⟨List.cons_ne_nil c [], fun d hd => ?_⟩
        rw [List.mem_singleton] at hd
        subst hd
        exact h
      | cons t0 ts0 =>
        rw [hm] at hok hch
        cases t0 with
        | word w =>
          rw [toks_cons_pos_word h hm]
          refine ⟨?_, ?_⟩
          · intro t ht
            rcases List.mem_cons.mp ht with rfl | ht'
            · have hw := hok (.word w) (List.mem_cons_self _ _)
              refine ⟨List.cons_ne_nil c w, fun d hd => ?_⟩
              rcases List.mem_cons.mp hd with rfl | hd'
              · exact h
              · exact hw.2 d hd'
            · exact hok t (List.mem_cons_of_mem _ ht')
          · rw [List.chain'_cons'] at hch ⊢
            refine ⟨fun y hy => ?_, hch.2⟩
            rcases hch.1 y hy with hL | hR
            · exact absurd hL (by simp [Tok.isWord])
            · exact Or.inr hR
        | sep d =>
          rw [toks_cons_pos_sep h hm]
          refine ⟨?_, ?_⟩
          · intro t ht
            rcases List.mem_cons.mp ht with rfl | ht'
            · refine ⟨List.cons_ne_nil c [], fun e he => ?_⟩
              rw [List.mem_singleton] at he
              subst he
              exact h
            · exact hok t ht'
          · rw [List.chain'_cons']
            refine ⟨fun y hy => ?_, hch⟩
            rw [List.head?_cons, Option.mem_def, Option.some_inj] at hy
            subst hy
            exact Or.inr rfl

lemma toks_all_word {p : Char → Bool} :
    ∀ w : List Char, w ≠ [] → (∀ c ∈ w, p c = true) →
      toks p w = [Tok.word w] := by
  intro w
  induction w with
  | nil => intro h; exact absurd rfl h
  | cons c w' ih =>
    intro _ hall
    have hc : p c = true := hall c (List.mem_cons_self _ _)
    cases w' with
    | nil => exact toks_cons_pos_nil hc rfl
    | cons c' w'' =>
      have hm : toks p (c' :: w'') = [Tok.word (c' :: w'')] :=
        ih (List.cons_ne_nil c' w'') fun d hd =>
          hall d (List.mem_cons_of_mem _ hd)
      exact toks_cons_pos_word hc hm

lemma toks_append {p : Char → Bool} :
    ∀ (r x : List Char), (∀ d, x.head? = some d → p d = false) →
      toks p (r ++ x) = toks p r ++ toks p x := by
  intro r
  induction r with
  | nil => intro x _; rfl
  | cons c r' ih =>
    intro x hx
    rw [List.cons_append]
    cases h : p c
    · rw [toks_cons_sep _ h, toks_cons_sep _ h, ih x hx, List.cons_append]
    · have hr : toks p (r' ++ x) = toks p r' ++ toks p x := ih x hx
      cases hm : toks p r' with
      | nil =>
        rw [hm, List.nil_append] at hr
        cases hx2 : toks p x with
        | nil =>
          rw [hx2] at hr
          rw [toks_cons_pos_nil h hr, toks_cons_pos_nil h hm,
            List.append_nil]

        | cons t0 ts0 =>
          cases t0 with
          | word w =>
            -- impossible: `x` is empty or starts with a non-`p` character,
            -- so its token list cannot start with a run
            exfalso
            cases x with
            | nil => simp [toks] at hx2
            | cons d x' =>
              rw [toks_cons_sep x' (hx d rfl)] at hx2
              simp at hx2
          | sep d =>
            rw [hx2] at hr
            rw [toks_cons_pos_sep h hr, toks_cons_pos_nil h hm]
            rfl
      | cons t0 ts0 =>
        cases t0 with
        | word w =>
          rw [hm, List.cons_append] at hr
          rw [toks_cons_pos_word h hr, toks_cons_pos_word h hm,
            List.cons_append]
        | sep d =>
          rw [hm, List.cons_append] at hr
          rw [toks_cons_pos_sep h hr, toks_cons_pos_sep h hm,
            List.cons_append]
          rfl

/-! ## C4: whitespace-collapse facts -/

lemma joinWords_cons_cons (w v : List Char) (ws : List (List Char)) :
    joinWords (w :: v :: ws) = w ++ ' ' :: joinWords (v :: ws) := rfl

lemma toksWords_cons_word (w : List Char) (ts : List Tok) :
    toksWords (.word w :: ts) = w :: toksWords ts := rfl

lemma toksWords_cons_sep (c : Char) (ts : List Tok) :
    toksWords (.sep c :: ts) = toksWords ts := rfl

lemma toksWords_append (ts ts' : List Tok) :
    toksWords (ts ++ ts') = toksWords ts ++ toksWords ts' :=
  List.filterMap_append _ _ _

lemma wsWords_joinWords :
    ∀ ws : List (List Char), (∀ w ∈ ws, GoodW w) →
      toksWords (toks notWs (joinWords ws)) = ws := by
  intro ws
  induction ws with
  | nil => intro _; rfl
  | cons w rest ih =>
    intro hgood
    have hw := hgood w (List.mem_cons_self _ _)
    have hAll : ∀ c ∈ w, notWs c = true := by
      intro c hc
      have h2 := hw.2 c hc
      simp [notWs, h2]
    cases rest with
    | nil =>
      show toksWords (toks notWs w) = [w]
      rw [toks_all_word w hw.1 hAll]
      rfl
    | cons v rest' =>
      rw [joinWords_cons_cons]
      rw [toks_append w (' ' :: joinWords (v :: rest'))
        (by intro d hd
            rw [List.head?_cons, Option.some_inj] at hd
            subst hd
            decide)]
      rw [toks_all_word w hw.1 hAll,
        toks_cons_sep (joinWords (v :: rest')) (by decide : notWs ' ' = false),
        toksWords_append, toksWords_cons_word, toksWords_cons_sep]
      show [w] ++ toksWords (toks notWs (joinWords (v :: rest'))) = w :: v :: rest'
      rw [ih fun u hu => hgood u (List.mem_cons_of_mem _ hu)]
      rfl

lemma collapseWs_joinWords (ws : List (List Char)) (h : ∀ w ∈ ws, GoodW w) :
    collapseWs (joinWords ws) = joinWords ws := by
  unfold collapseWs
  rw [wsWords_joinWords ws h]

lemma joined_collapse {s : List Char} (h : Joined s) : collapseWs s = s := by
  obtain ⟨ws, hg, rfl⟩ := h
  exact collapseWs_joinWords ws hg

lemma collapse_joined (s : List Char) : Joined (collapseWs s) := by
  refine ⟨toksWords (toks notWs s), ?_, rfl⟩
  intro w hw
  obtain ⟨hok, _⟩ := wf_toks notWs s
  rcases List.mem_filterMap.mp hw with ⟨t, ht, hf⟩
  cases t with
  | word w' =>
    rw [Option.some_inj] at hf
    subst hf
    have hW := hok (.word w') ht
    refine ⟨hW.1, fun c hc => ?_⟩
    have h2 := hW.2 c hc
    simp [notWs] at h2
    exact h2
  | sep c => cases hf

lemma joined_nil : Joined ([] : List Char) :=
  ⟨[], fun w h => (List.not_mem_nil w h).elim, rfl⟩

lemma joinWords_cons_ne_nil {w : List Char} (hw : w ≠ [])
    (ws : List (List Char)) : joinWords (w :: ws) ≠ [] := by
  cases ws with
  | nil => exact hw
  | cons v ws' =>
    rw [joinWords_cons_cons]
    intro h
    rcases List.append_eq_nil.mp h with ⟨_, h2⟩
    cases h2

lemma joinedNE_ne {s : List Char} (h : JoinedNE s) : s ≠ [] := by
  obtain ⟨ws, hne, hg, rfl⟩ := h
  cases ws with
  | nil => exact absurd rfl hne
  | cons w ws' => exact joinWords_cons_ne_nil (hg w (List.mem_cons_self _ _)).1 ws'

lemma joined_of_NE {s : List Char} (h : JoinedNE s) : Joined s := by
  obtain ⟨ws, _, hg, hEq⟩ := h
  exact ⟨ws, hg, hEq⟩

lemma joinWords_append :
    ∀ (A B : List (List Char)), A ≠ [] → B ≠ [] →
      joinWords (A ++ B) = joinWords A ++ ' ' :: joinWords B := by
  intro A
  induction A with
  | nil => intro B h _; exact absurd rfl h
  | cons w A' ih =>
    intro B _ hB
    cases A' with
    | nil =>
      cases B with
      | nil => exact absurd rfl hB
      | cons v B' =>
        show joinWords (w :: v :: B') = joinWords [w] ++ ' ' :: joinWords (v :: B')
        rw [joinWords_cons_cons]
        rfl
    | cons u A'' =>
      show joinWords (w :: ((u :: A'') ++ B)) = _
      rw [show (u :: A'') ++ B = u :: (A'' ++ B) from rfl]
      rw [joinWords_cons_cons]
      rw [show u :: (A'' ++ B) = (u :: A'') ++ B from rfl]
      rw [ih B (List.cons_ne_nil u A'') hB]
      rw [joinWords_cons_cons]
      rw [List.append_assoc]
      rfl

lemma joinedNE_append {x y : List Char} (hx : JoinedNE x) (hy : JoinedNE y) :
    JoinedNE (x ++ y) := by
  obtain ⟨A, hAne, hAg, rfl⟩ := hx
  obtain ⟨B, hBne, hBg, rfl⟩ := hy
  clear hAne
  induction A with
  | nil =>
    refine ⟨B, hBne, hBg, ?_⟩
    rfl
  | cons w A' ih =>
    cases A' with
    | nil =>
      cases B with
      | nil => exact absurd rfl hBne
      | cons v B' =>
        refine ⟨(w ++ v) :: B', List.cons_ne_nil _ _, ?_, ?_⟩
        · intro u hu
          rcases List.mem_cons.mp hu with rfl | hu'
          · have hwG := hAg w (List.mem_cons_self _ _)
            have hvG := hBg v (List.mem_cons_self _ _)
            refine ⟨fun hEq => hwG.1 (List.append_eq_nil.mp hEq).1, ?_⟩
            intro c hc
            rcases List.mem_append.mp hc with hc' | hc'
            · exact hwG.2 c hc'
            · exact hvG.2 c hc'
          · exact hBg u (List.mem_cons_of_mem _ hu')
        · cases B' with
          | nil => rfl
          | cons v2 B'' =>
            show joinWords [w] ++ joinWords (v :: v2 :: B'') = _
            rw [joinWords_cons_cons, joinWords_cons_cons]
            rw [← List.append_assoc]
            rfl
    | cons u A'' =>
      have hA'g : ∀ v ∈ u :: A'', GoodW v :=
        fun v hv => hAg v (List.mem_cons_of_mem _ hv)
      obtain ⟨C, hCne, hCg, hCeq⟩ := ih hA'g
      cases C with
      | nil => exact absurd rfl hCne
      | cons c0 C' =>
        refine ⟨w :: c0 :: C', List.cons_ne_nil _ _, ?_, ?_⟩
        · intro v hv
          rcases List.mem_cons.mp hv with rfl | hv'
          · exact hAg v (List.mem_cons_self _ _)
          · exact hCg v hv'
        · rw [joinWords_cons_cons w c0 C', ← hCeq, joinWords_cons_cons w u A'']
          simp [List.append_assoc]

lemma joinWords_all_joinedNE :
    ∀ L : List (List Char), (∀ x ∈ L, JoinedNE x) →
      L = [] ∨ JoinedNE (joinWords L) := by
  intro L
  induction L with
  | nil => intro _; exact Or.inl rfl
  | cons x rest ih =>
    intro hall
    right
    rcases ih (fun z hz => hall z (List.mem_cons_of_mem _ hz)) with rfl | hNE
    · exact hall x (List.mem_cons_self _ _)
    · obtain ⟨Ax, hAne, hAg, hAeq⟩ := hall x (List.mem_cons_self _ _)
      obtain ⟨B, hBne, hBg, hBeq⟩ := hNE
      cases rest with
      | nil => exact absurd rfl (joinedNE_ne ⟨B, hBne, hBg, hBeq⟩)
      | cons r0 rest' =>
        refine ⟨Ax ++ B, ?_, ?_, ?_⟩
        · intro hEq
          exact hAne (List.append_eq_nil.mp hEq).1
        · intro u hu
          rcases List.mem_append.mp hu with hu' | hu'
          · exact hAg u hu'
          · exact hBg u hu'
        · rw [joinWords_cons_cons, joinWords_append Ax B hAne hBne,
            ← hAeq, ← hBeq]

/-! ## C4: whole-word substitution facts -/

lemma substTok_sep (pat repl : List Char) (d : Char) :
    substTok pat repl (.sep d) = [d] := rfl

lemma substWord_join (pat repl : List Char) :
    ∀ ws : List (List Char),
      substWord pat repl (joinWords ws) =
        joinWords (ws.map (substWord pat repl)) := by
  intro ws
  induction ws with
  | nil => rfl
  | cons w rest ih =>
    cases rest with
    | nil => rfl
    | cons v rest' =>
      rw [joinWords_cons_cons]
      show ((toks isWordChar
          (w ++ ' ' :: joinWords (v :: rest'))).map (substTok pat repl)).flatten = _
      rw [toks_append w (' ' :: joinWords (v :: rest'))
          (by intro d hd
              rw [List.head?_cons, Option.some_inj] at hd
              subst hd
              decide),
        toks_cons_sep (joinWords (v :: rest'))
          (by decide : isWordChar ' ' = false),
        List.map_append, List.flatten_append]
      show substWord pat repl w ++
          (' ' :: substWord pat repl (joinWords (v :: rest'))) = _
      rw [ih]
      rfl

lemma toksWords_chars {p : Char → Bool} {s w : List Char}
    (hw : w ∈ toksWords (toks p s)) {c : Char} (hc : c ∈ w) : c ∈ s := by
  rcases List.mem_filterMap.mp hw with ⟨t, ht, hf⟩
  cases t with
  | word w2 =>
    rw [Option.some_inj] at hf
    have hmem : c ∈ toksChars (toks p s) :=
      List.mem_flatten.mpr ⟨Tok.chars (.word w2), List.mem_map_of_mem _ ht,
        by rw [hf]; exact hc⟩
    rwa [toksChars_toks] at hmem
  | sep d => cases hf

lemma substWord_chars {pat repl s : List Char} {c : Char}
    (hc : c ∈ substWord pat repl s) : c ∈ s ∨ c ∈ repl := by
  rcases List.mem_flatten.mp hc with ⟨chunk, hchunk, hcc⟩
  rcases List.mem_map.mp hchunk with ⟨t, ht, rfl⟩
  cases t with
  | word w =>
    by_cases hw : w = pat
    · rw [show substTok pat repl (.word w) = if w = pat then repl else w
        from rfl, if_pos hw] at hcc
      exact Or.inr hcc
    · rw [show substTok pat repl (.word w) = if w = pat then repl else w
        from rfl, if_neg hw] at hcc
      left
      have hmem : c ∈ toksChars (toks isWordChar s) :=
        List.mem_flatten.mpr ⟨Tok.chars (.word w), List.mem_map_of_mem _ ht, hcc⟩
      rwa [toksChars_toks] at hmem
  | sep d =>
    rw [substTok_sep] at hcc
    rw [List.mem_singleton] at hcc
    subst hcc
    left
    have hmem : c ∈ toksChars (toks isWordChar s) :=
      List.mem_flatten.mpr ⟨Tok.chars (.sep c), List.mem_map_of_mem _ ht,
        List.mem_singleton.mpr rfl⟩
    rwa [toksChars_toks] at hmem

lemma joinWords_chars :
    ∀ (ws : List (List Char)) (c : Char), c ∈ joinWords ws →
      (∃ w ∈ ws, c ∈ w) ∨ c = ' ' := by
  intro ws
  induction ws with
  | nil => intro c hc; exact (List.not_mem_nil c hc).elim
  | cons w rest ih =>
    intro c hc
    cases rest with
    | nil => exact Or.inl ⟨w, List.mem_cons_self _ _, hc⟩
    | cons v rest' =>
      rw [joinWords_cons_cons] at hc
      rcases List.mem_append.mp hc with hc' | hc'
      · exact Or.inl ⟨w, List.mem_cons_self _ _, hc'⟩
      · rcases List.mem_cons.mp hc' with rfl | hc''
        · exact Or.inr rfl
        · rcases ih c hc'' with ⟨u, hu, hcu⟩ | hsp
          · exact Or.inl ⟨u, List.mem_cons_of_mem _ hu, hcu⟩
          · exact Or.inr hsp

lemma collapseWs_chars {s : List Char} {c : Char} (hc : c ∈ collapseWs s) :
    c ∈ s ∨ c = ' ' := by
  unfold collapseWs at hc
  rcases joinWords_chars _ c hc with ⟨w, hw, hcw⟩ | hsp
  · exact Or.inl (toksWords_chars hw hcw)
  · exact Or.inr hsp

lemma substWord_id {pat repl s : List Char}
    (h : ∀ w ∈ wordsOfW s, w ≠ pat) : substWord pat repl s = s := by
  show ((toks isWordChar s).map (substTok pat repl)).flatten = s
  have hmap : (toks isWordChar s).map (substTok pat repl) =
      (toks isWordChar s).map Tok.chars := by
    apply List.map_congr_left
    intro t ht
    cases t with
    | word w =>
      have hw : w ≠ pat := h w (List.mem_filterMap.mpr ⟨.word w, ht, rfl⟩)
      simp [substTok, hw, Tok.chars]
    | sep d => rfl
  rw [hmap]
  exact toksChars_toks isWordChar s

lemma subst_words_aux (pat repl : List Char) :
    ∀ ts : List Tok, WFtoks isWordChar ts →
      ∀ w' ∈ toksWords (toks isWordChar
        ((ts.map (substTok pat repl)).flatten)),
        w' ∈ wordsOfW repl ∨ (w' ∈ toksWords ts ∧ w' ≠ pat) := by
  intro ts
  induction ts with
  | nil => intro _ w' hw'; exact (List.not_mem_nil w' hw').elim
  | cons t ts' ih =>
    intro hWF w' hw'
    have hWF' : WFtoks isWordChar ts' :=
      ⟨fun u hu => hWF.1 u (List.mem_cons_of_mem _ hu),
        (List.chain'_cons'.mp hWF.2).2⟩
    cases t with
    | sep d =>
      have hd : isWordChar d = false := hWF.1 (.sep d) (List.mem_cons_self _ _)
      rw [List.map_cons, substTok_sep,
        show (([d] : List Char) :: ts'.map (substTok pat repl)).flatten =
          d :: (ts'.map (substTok pat repl)).flatten from rfl,
        toks_cons_sep _ hd, toksWords_cons_sep] at hw'
      rcases ih hWF' w' hw' with h | ⟨h1, h2⟩
      · exact Or.inl h
      · exact Or.inr ⟨h1, h2⟩
    | word w =>
      have hW := hWF.1 (.word w) (List.mem_cons_self _ _)
      have hsep : ∀ d, ((ts'.map (substTok pat repl)).flatten).head? = some d →
          isWordChar d = false := by
        cases ts' with
        | nil => intro d hd; cases hd
        | cons t2 ts'' =>
          have hch := hWF.2
          rw [List.chain'_cons] at hch
          rcases hch.1 with hL | hR
          · exact absurd hL (by simp [Tok.isWord])
          · cases t2 with
            | word w2 => simp [Tok.isWord] at hR
            | sep d2 =>
              have hd2 : isWordChar d2 = false :=
                hWF.1 (.sep d2) (List.mem_cons_of_mem _ (List.mem_cons_self _ _))
              intro d hd
              rw [List.map_cons, substTok_sep,
                show (([d2] : List Char) :: ts''.map (substTok pat repl)).flatten
                  = d2 :: (ts''.map (substTok pat repl)).flatten from rfl,
                List.head?_cons, Option.some_inj] at hd
              subst hd
              exact hd2
      by_cases hwp : w = pat
      · have hchunk : substTok pat repl (.word w) = repl := by
          simp [substTok, hwp]
        rw [List.map_cons, hchunk,
          show (repl :: ts'.map (substTok pat repl)).flatten =
            repl ++ (ts'.map (substTok pat repl)).flatten from rfl,
          toks_append repl _ hsep, toksWords_append] at hw'
        rcases List.mem_append.mp hw' with h | h
        · exact Or.inl h
        · rcases ih hWF' w' h with h' | ⟨h1, h2⟩
          · exact Or.inl h'
          · exact Or.inr ⟨List.mem_cons_of_mem _ h1, h2⟩
      · have hchunk : substTok pat repl (.word w) = w := by
          simp [substTok, hwp]
        rw [List.map_cons, hchunk,
          show (w :: ts'.map (substTok pat repl)).flatten =
            w ++ (ts'.map (substTok pat repl)).flatten from rfl,
          toks_append w _ hsep, toks_all_word w hW.1 hW.2,
          show toksWords ([Tok.word w] ++
            toks isWordChar ((ts'.map (substTok pat repl)).flatten)) =
            w :: toksWords (toks isWordChar
              ((ts'.map (substTok pat repl)).flatten)) from rfl] at hw'
        rcases List.mem_cons.mp hw' with rfl | h
        · exact Or.inr ⟨List.mem_cons_self _ _, hwp⟩
        · rcases ih hWF' w' h with h' | ⟨h1, h2⟩
          · exact Or.inl h'
          · exact Or.inr ⟨List.mem_cons_of_mem _ h1, h2⟩

lemma subst_words {pat repl s : List Char} :
    ∀ w' ∈ wordsOfW (substWord pat repl s),
      w' ∈ wordsOfW repl ∨ (w' ∈ wordsOfW s ∧ w' ≠ pat) := by
  intro w' hw'
  exact subst_words_aux pat repl (toks isWordChar s) (wf_toks _ s) w' hw'

lemma flatten_joinedNE {f : Tok → List Char} :
    ∀ ts : List Tok, ts ≠ [] → (∀ t ∈ ts, JoinedNE (f t)) →
      JoinedNE ((ts.map f).flatten) := by
  intro ts
  induction ts with
  | nil => intro h; exact absurd rfl h
  | cons t ts' ih =>
    intro _ hall
    cases ts' with
    | nil =>
      show JoinedNE (f t ++ [])
      rw [List.append_nil]
      exact hall t (List.mem_cons_self _ _)
    | cons t2 ts'' =>
      show JoinedNE (f t ++ ((t2 :: ts'').map f).flatten)
      exact joinedNE_append (hall t (List.mem_cons_self _ _))
        (ih (List.cons_ne_nil _ _) fun u hu => hall u (List.mem_cons_of_mem _ hu))

lemma subst_good_word {pat repl w : List Char} (hw : GoodW w)
    (hrepl : JoinedNE repl) : JoinedNE (substWord pat repl w) := by
  have hne : toks isWordChar w ≠ [] := by
    intro h
    have hch := toksChars_toks isWordChar w
    rw [h] at hch
    exact hw.1 hch.symm
  refine flatten_joinedNE (toks isWordChar w) hne ?_
  intro t ht
  have hmemw : ∀ c ∈ t.chars, c ∈ w := by
    intro c hc
    have hmem : c ∈ toksChars (toks isWordChar w) :=
      List.mem_flatten.mpr ⟨t.chars, List.mem_map_of_mem _ ht, hc⟩
    rwa [toksChars_toks] at hmem
  have hok := (wf_toks isWordChar w).1 t ht
  cases t with
  | word w' =>
    by_cases hwp : w' = pat
    · rw [show substTok pat repl (.word w') = if w' = pat then repl else w'
        from rfl, if_pos hwp]
      exact hrepl
    · rw [show substTok pat repl (.word w') = if w' = pat then repl else w'
        from rfl, if_neg hwp]
      refine ⟨[w'], List.cons_ne_nil _ _, ?_, rfl⟩
      intro u hu
      rw [List.mem_singleton] at hu
      subst hu
      exact ⟨hok.1, fun c hc => hw.2 c (hmemw c hc)⟩
  | sep d =>
    rw [substTok_sep]
    refine ⟨[[d]], List.cons_ne_nil _ _, ?_, rfl⟩
    intro u hu
    rw [List.mem_singleton] at hu
    subst hu
    refine ⟨List.cons_ne_nil _ _, fun c hc => ?_⟩
    rw [List.mem_singleton] at hc
    subst hc
    exact hw.2 c (hmemw c (List.mem_singleton.mpr rfl))

lemma subst_joined {pat repl t : List Char} (hrepl : JoinedNE repl)
    (h : Joined t) : Joined (substWord pat repl t) := by
  obtain ⟨ws, hg, rfl⟩ := h
  rw [substWord_join]
  have hall : ∀ x ∈ ws.map (substWord pat repl), JoinedNE x := by
    intro x hx
    rcases List.mem_map.mp hx with ⟨w, hw, rfl⟩
    exact subst_good_word (hg w hw) hrepl
  rcases joinWords_all_joinedNE (ws.map (substWord pat repl)) hall with
    hnil | hNE
  · rw [hnil]
    exact joined_nil
  · exact joined_of_NE hNE

lemma lowerChar_idem (c : Char) : lowerChar (lowerChar c) = lowerChar c := by
  unfold lowerChar
  by_cases h : 'A' ≤ c ∧ c ≤ 'Z'
  · rw [if_pos h, if_neg]
    have h1 : 65 ≤ c.toNat := by
      have hh := h.1
      rw [Char.le_def] at hh
      exact hh
    have h2 : c.toNat ≤ 90 := by
      have hh := h.2
      rw [Char.le_def] at hh
      exact hh
    generalize c.toNat = n at h1 h2 ⊢
    interval_cases n <;> decide
  · rw [if_neg h, if_neg h]

/-! ## C4: the substitution tables and the canonical form -/

lemma substFold_nil (s : List Char) : substFold [] s = s := rfl

lemma substFold_cons (kv : String × String) (tbl : List (String × String))
    (s : List Char) :
    substFold (kv :: tbl) s =
      substFold tbl (substWord kv.1.data kv.2.data s) := rfl

lemma substFold_append (t1 t2 : List (String × String)) (s : List Char) :
    substFold (t1 ++ t2) s = substFold t2 (substFold t1 s) :=
  List.foldl_append _ _ _ _

lemma substFold_id : ∀ (tbl : List (String × String)) (s : List Char),
    (∀ kv ∈ tbl, substWord kv.1.data kv.2.data s = s) →
    substFold tbl s = s := by
  intro tbl
  induction tbl with
  | nil => intro s _; rfl
  | cons kv rest ih =>
    intro s hall
    rw [substFold_cons, hall kv (List.mem_cons_self _ _)]
    exact ih s fun u hu => hall u (List.mem_cons_of_mem _ hu)

lemma substFold_chars : ∀ (tbl : List (String × String)) (s : List Char)
    (c : Char), c ∈ substFold tbl s →
    c ∈ s ∨ ∃ kv ∈ tbl, c ∈ kv.2.data := by
  intro tbl
  induction tbl with
  | nil => intro s c hc; exact Or.inl hc
  | cons kv rest ih =>
    intro s c hc
    rw [substFold_cons] at hc
    rcases ih _ c hc with hc' | ⟨u, hu, hcu⟩
    · rcases substWord_chars hc' with h | h
      · exact Or.inl h
      · exact Or.inr ⟨kv, List.mem_cons_self _ _, h⟩
    · exact Or.inr ⟨u, List.mem_cons_of_mem _ hu, hcu⟩

lemma substFold_joined : ∀ (tbl : List (String × String)) (s : List Char),
    (∀ kv ∈ tbl, JoinedNE kv.2.data) → Joined s →
    Joined (substFold tbl s) := by
  intro tbl
  induction tbl with
  | nil => intro s _ h; exact h
  | cons kv rest ih =>
    intro s hall h
    rw [substFold_cons]
    exact ih _ (fun u hu => hall u (List.mem_cons_of_mem _ hu))
      (subst_joined (hall kv (List.mem_cons_self _ _)) h)

lemma joinedNE_of_collapsed {s : List Char} (h1 : s ≠ [])
    (h2 : collapseWs s = s) : JoinedNE s := by
  refine ⟨toksWords (toks notWs s), ?_, ?_, ?_⟩
  · intro h
    apply h1
    rw [← h2]
    unfold collapseWs
    rw [h]
    rfl
  · intro w hw
    obtain ⟨hok, _⟩ := wf_toks notWs s
    rcases List.mem_filterMap.mp hw with ⟨t, ht, hf⟩
    cases t with
    | word w2 =>
      rw [Option.some_inj] at hf
      have hW := hok (.word w2) ht
      constructor
      · rw [← hf]; exact hW.1
      · intro c hc
        rw [← hf] at hc
        have h3 := hW.2 c hc
        simp [notWs] at h3
        exact h3
    | sep d => cases hf
  · exact h2.symm

lemma table_repl_fact :
    ∀ kv ∈ abbreviations ++ plural_map,
      kv.2.data ≠ [] ∧ collapseWs kv.2.data = kv.2.data := by decide

lemma table_repl_joinedNE :
    ∀ kv ∈ abbreviations ++ plural_map, JoinedNE kv.2.data := fun kv hkv =>
  joinedNE_of_collapsed (table_repl_fact kv hkv).1 (table_repl_fact kv hkv).2

lemma table_repl_chars :
    ∀ kv ∈ abbreviations ++ plural_map, ∀ c ∈ kv.2.data,
      lowerChar c = c ∧ keepChar c = true := by decide

lemma replWords_not_keys : ∀ w ∈ ReplWords, w ∉ subKeys := by decide

lemma substFold_nokey :
    ∀ tbl : List (String × String),
      (∀ kv ∈ tbl, kv ∈ abbreviations ++ plural_map) →
      ∀ (proc : List (List Char)) (s : List Char),
        (∀ w ∈ wordsOfW s, w ∈ ReplWords ∨ w ∉ proc) →
        ∀ w ∈ wordsOfW (substFold tbl s),
          w ∈ ReplWords ∨ w ∉ proc ++ tbl.map fun kv => kv.1.data := by
  intro tbl
  induction tbl with
  | nil =>
    intro _ proc s hinv w hw
    rcases hinv w hw with h | h
    · exact Or.inl h
    · right
      rw [List.map_nil, List.append_nil]
      exact h
  | cons kv rest ih =>
    intro htbl proc s hinv w hw
    rw [substFold_cons] at hw
    have hkv : kv ∈ abbreviations ++ plural_map :=
      htbl kv (List.mem_cons_self _ _)
    have hstep : ∀ u ∈ wordsOfW (substWord kv.1.data kv.2.data s),
        u ∈ ReplWords ∨ u ∉ proc ++ [kv.1.data] := by
      intro u hu
      rcases subst_words u hu with h | ⟨h1, h2⟩
      · left
        exact List.mem_flatten.mpr
          ⟨wordsOfW kv.2.data,
            List.mem_map_of_mem (fun q => wordsOfW q.2.data) hkv, h⟩
      · rcases hinv u h1 with h' | h'
        · exact Or.inl h'
        · right
          intro hmem
          rcases List.mem_append.mp hmem with hm | hm
          · exact h' hm
          · rw [List.mem_singleton] at hm
            exact h2 hm
    rcases ih (fun u hu => htbl u (List.mem_cons_of_mem _ hu))
      (proc ++ [kv.1.data]) _ hstep w hw with h | h
    · exact Or.inl h
    · right
      intro hmem
      apply h
      rw [List.map_cons, List.append_cons] at hmem
      exact hmem

lemma normalizeL_as_fold (s : List Char) :
    normalizeL s = substFold (abbreviations ++ plural_map)
      (collapseWs ((s.map lowerChar).map replChar)) :=
  (substFold_append _ _ _).symm

lemma charOK_repl_lower (a : Char) :
    lowerChar (replChar (lowerChar a)) = replChar (lowerChar a) ∧
    keepChar (replChar (lowerChar a)) = true := by
  cases h : keepChar (lowerChar a)
  · have hr : replChar (lowerChar a) = ' ' := by simp [replChar, h]
    rw [hr]
    exact ⟨by decide, by decide⟩
  · have hr : replChar (lowerChar a) = lowerChar a := by simp [replChar, h]
    rw [hr]
    exact ⟨lowerChar_idem a, h⟩

lemma normalizeL_chars (s : List Char) :
    ∀ c ∈ normalizeL s, lowerChar c = c ∧ keepChar c = true := by
  intro c hc
  rw [normalizeL_as_fold] at hc
  rcases substFold_chars _ _ c hc with hc' | ⟨kv, hkv, hckv⟩
  · rcases collapseWs_chars hc' with hc'' | rfl
    · rcases List.mem_map.mp hc'' with ⟨b, hb, rfl⟩
      rcases List.mem_map.mp hb with ⟨a, _, rfl⟩
      exact charOK_repl_lower a
    · exact ⟨rfl, rfl⟩
  · exact table_repl_chars kv hkv c hckv

lemma normalizeL_joined (s : List Char) : Joined (normalizeL s) := by
  rw [normalizeL_as_fold]
  exact substFold_joined _ _ table_repl_joinedNE
    (collapse_joined ((s.map lowerChar).map replChar))

lemma normalizeL_nokey (s : List Char) :
    ∀ w ∈ wordsOfW (normalizeL s), w ∉ subKeys := by
  intro w hw
  rw [normalizeL_as_fold] at hw
  rcases substFold_nokey (abbreviations ++ plural_map) (fun _ h => h) []
    _ (fun u _ => Or.inr (List.not_mem_nil u)) w hw with h | h
  · exact replWords_not_keys w h
  · intro hk
    apply h
    rw [List.nil_append]
    exact hk

lemma map_id_of {f : Char → Char} :
    ∀ s : List Char, (∀ c ∈ s, f c = c) → s.map f = s := by
  intro s h
  induction s with
  | nil => rfl
  | cons c rest ih =>
    rw [List.map_cons, h c (List.mem_cons_self _ _),
      ih fun d hd => h d (List.mem_cons_of_mem _ hd)]

lemma normalizeL_idem (t : List Char) :
    normalizeL (normalizeL t) = normalizeL t := by
  have hchars := normalizeL_chars t
  have hjoined := normalizeL_joined t
  have hnokey := normalizeL_nokey t
  have hsub : ∀ tbl : List (String × String),
      (∀ kv ∈ tbl, kv.1.data ∈ subKeys) →
      substFold tbl (normalizeL t) = normalizeL t := by
    intro tbl htbl
    refine substFold_id tbl _ fun kv hkv => ?_
    refine substWord_id fun w hw hEq => ?_
    exact hnokey w hw (hEq ▸ htbl kv hkv)
  show substFold plural_map (substFold abbreviations
    (collapseWs (((normalizeL t).map lowerChar).map replChar))) = normalizeL t
  rw [map_id_of _ fun c hc => (hchars c hc).1]
  rw [map_id_of _ fun c hc => by
    have h2 := (hchars c hc).2
    simp [replChar, h2]]
  rw [joined_collapse hjoined]
  rw [hsub abbreviations fun kv hkv => List.mem_map_of_mem _
    (List.mem_append_left _ hkv)]
  exact hsub plural_map fun kv hkv => List.mem_map_of_mem _
    (List.mem_append_right _ hkv)

lemma string_data_mk (l : List Char) : (String.mk l).data = l := rfl

lemma normalize_term_data (s : String) :
    (normalize_term s).data = normalizeL s.data := by
  simp only [normalize_term, string_data_mk]

/-- C4: `normalize_term` is idempotent — normalizing an already-canonical
term (the output of a first normalization) returns it unchanged. -/
theorem C4_normalize_idempotent :
    ∀ s : String, normalize_term (normalize_term s) = normalize_term s := by
  intro s
  apply String.ext
  rw [normalize_term_data, normalize_term_data, normalizeL_idem]

/-- Witness for C4: re-normalizing the canonical form of "HTN, DM." leaves
it unchanged. -/
theorem C4_witness :
    normalize_term (normalize_term "HTN, DM.") = normalize_term "HTN, DM." :=
  C4_normalize_idempotent "HTN, DM."

/-- Witness for C9: validity of "COVID-19" through the characterization. -/
theorem C9_witness : is_valid_mention "COVID-19" = true :=
  (C9_valid_mention_iff_alnum.1 "COVID-19").mpr ⟨'c', by decide, by decide⟩

end Pdf2Icd
